import Mathlib

set_option maxHeartbeats 1000000

/-!
Shallow embedding of the advent-ocr crate (src/lib.rs and src/scannable.rs).

The canonical grid text is modelled as a `List Char`.  All inputs that the
claims exercise are ASCII, so byte indexing in the Rust code coincides with
character indexing here.  Functions that can panic in Rust (index out of
range, `unwrap` on `None`, division by zero) return an `Option` whose `none`
stands for the panic; the inner `Option` mirrors the `Option` that the Rust
function itself returns.  The letter map built by `get_letter_map` from the
two font asset files is passed around explicitly as a function
`Nat → Option Char`, since the claims quantify over its contents.
-/

/-- Whitespace predicate used by Rust's `str::trim` (the ASCII cases, which
cover every character occurring in canonical grids). -/
def isWs (c : Char) : Bool :=
  c = ' ' || c = '\n' || c = '\t' || c = '\r' || c = '\x0b' || c = '\x0c'

/-- Model of Rust `str::trim`: drop whitespace from the front, then from the
back. -/
def rustTrim (s : List Char) : List Char :=
  ((s.dropWhile isWs).reverse.dropWhile isWs).reverse

/-- The character pushed for one cell by the bool-based `Scannable`
implementations: `'#'` for an on-cell, `'.'` for an off-cell
(scannable.rs lines 36 and 65). -/
def boolChar (b : Bool) : Char := if b then '#' else '.'

/-- `impl Scannable for &str` (scannable.rs lines 22-26): `normalize` is
`self.to_string()`, the identity on the text. -/
def normalize_str (s : List Char) : List Char := s

/-- `impl Scannable for (&Vec<bool>, usize)` (scannable.rs lines 28-42):
`height = bools.len() / width`; for each `y < height` and `x < width` push
`bools[x + y * width]` rendered through `boolChar`, then push a newline.
In Rust `bools.len() / width` panics when `width = 0` (division by zero),
modelled by `none`; for `width > 0` every index `x + y * width` is in
bounds, so the `getD` default is never consulted. -/
def normalize_flat_bool (bools : List Bool) (width : Nat) : Option (List Char) :=
  if width = 0 then none else
  some ((List.range (bools.length / width)).flatMap (fun y =>
    ((List.range width).map (fun x => boolChar (bools.getD (x + y * width) false))) ++ ['\n']))

/-- `impl Scannable for (&Vec<char>, usize)` (scannable.rs lines 44-58):
same loop as the bool version but pushing `chars[x + y * width]` itself. -/
def normalize_flat_char (chars : List Char) (width : Nat) : Option (List Char) :=
  if width = 0 then none else
  some ((List.range (chars.length / width)).flatMap (fun y =>
    ((List.range width).map (fun x => chars.getD (x + y * width) ' ')) ++ ['\n']))

/-- `impl Scannable for &Vec<Vec<bool>>` (scannable.rs lines 60-71): each row's
cells rendered through `boolChar`, each row followed by one newline. -/
def normalize_rows_bool (rows : List (List Bool)) : List Char :=
  rows.flatMap (fun row => row.map boolChar ++ ['\n'])

/-- `impl Scannable for &Vec<Vec<char>>` (scannable.rs lines 73-84): each row's
cells pushed unchanged, each row followed by one newline. -/
def normalize_rows_char (rows : List (List Char)) : List Char :=
  rows.flatMap (fun row => row ++ ['\n'])

/-- Model of Rust `str::find('\n')`: index of the first newline, if any. -/
def findNewline : List Char → Option Nat
  | [] => none
  | c :: rest => if c = '\n' then some 0 else (findNewline rest).map (· + 1)

/-- The height computed by `map_to_id` (lib.rs line 51):
`image.len() / width`. -/
def heightUsed (image : List Char) (width : Nat) : Nat := image.length / width

/-- The mutable scan state of the column loop in `map_to_id` (lib.rs lines
54-57): the accumulating identifier, the per-letter column counter, and the
identifiers pushed so far. -/
structure ScanState where
  id : Nat
  letterWidth : Nat
  ids : List Nat
deriving DecidableEq

/-- The fold of one column's bits into an accumulating identifier (lib.rs
lines 73-74): `(acc << 1) + if b { 1 } else { 0 }` on `u64`, where `<< 1`
silently discards the top bit, i.e. multiplies by 2 modulo 2^64. -/
def colFold (acc : Nat) (col : List Bool) : Nat :=
  col.foldl (fun a b => (a * 2) % 2 ^ 64 + (if b then 1 else 0)) acc

/-- One iteration of the column loop of `map_to_id` (lib.rs lines 59-77):
a blank column closes the current identifier (if non-zero); a non-blank
column first force-closes a height-6 letter that has already used 5 columns,
then folds the column into the identifier and bumps the counter. -/
def scanStep (height : Nat) (s : ScanState) (col : List Bool) : ScanState :=
  if col.all (fun b => !b) then
    { id := 0, letterWidth := 0, ids := if s.id ≠ 0 then s.ids ++ [s.id] else s.ids }
  else
    let s1 : ScanState :=
      if height = 6 ∧ s.letterWidth = 5 then
        { id := 0, letterWidth := 0, ids := s.ids ++ [s.id] }
      else s
    { id := colFold s1.id col, letterWidth := s1.letterWidth + 1, ids := s1.ids }

/-- The close-out after the loop (lib.rs line 78): push the identifier still
accumulating, if non-zero. -/
def finalIds (s : ScanState) : List Nat :=
  if s.id ≠ 0 then s.ids ++ [s.id] else s.ids

/-- One column read of `map_to_id` (lib.rs lines 60-62):
`image[x + y * (width + 1)] == b'#'` for `y` in `0..height`; `none` models the
panic of an out-of-range index. -/
def colOfP (image : List Char) (width height x : Nat) : Option (List Bool) :=
  (List.range height).mapM (fun y => (image[x + y * (width + 1)]?).map (fun c => c == '#'))

/-- `map_to_id` (lib.rs lines 49-80).  Outer `none` = panic (division by zero
when the text starts with a newline, or an out-of-range column read); inner
`none` = the function's own `None` (no newline found, lib.rs line 50). -/
def map_to_id (image : List Char) : Option (Option (List Nat)) :=
  match findNewline image with
  | none => some none
  | some width =>
    if width = 0 then none
    else
      match (List.range width).mapM (fun x => colOfP image width (heightUsed image width) x) with
      | none => none
      | some cols =>
        some (some (finalIds (cols.foldl (scanStep (heightUsed image width)) ⟨0, 0, []⟩)))

/-- The body of `ocr` (lib.rs lines 38-47) applied to the already-normalized
text: trim, segment via `map_to_id`, then map every identifier through the
letter map with `'?'` as the fallback (`unwrap_or(&'?')`). -/
def ocrFromText (lm : Nat → Option Char) (normalized : List Char) : Option (Option (List Char)) :=
  match map_to_id (rustTrim normalized) with
  | none => none
  | some none => some none
  | some (some ids) => some (some (ids.map (fun i => (lm i).getD '?')))

/-- `ocr` called with a `&str` image. -/
def ocr_str (lm : Nat → Option Char) (s : List Char) : Option (Option (List Char)) :=
  ocrFromText lm (normalize_str s)

/-- `ocr` called with a `(&Vec<bool>, usize)` image. -/
def ocr_flat_bool (lm : Nat → Option Char) (bools : List Bool) (width : Nat) :
    Option (Option (List Char)) :=
  match normalize_flat_bool bools width with
  | none => none
  | some t => ocrFromText lm t

/-- `ocr` called with a `(&Vec<char>, usize)` image. -/
def ocr_flat_char (lm : Nat → Option Char) (chars : List Char) (width : Nat) :
    Option (Option (List Char)) :=
  match normalize_flat_char chars width with
  | none => none
  | some t => ocrFromText lm t

/-- `ocr` called with a `&Vec<Vec<bool>>` image. -/
def ocr_rows_bool (lm : Nat → Option Char) (rows : List (List Bool)) :
    Option (Option (List Char)) :=
  ocrFromText lm (normalize_rows_bool rows)

/-- `ocr` called with a `&Vec<Vec<char>>` image. -/
def ocr_rows_char (lm : Nat → Option Char) (rows : List (List Char)) :
    Option (Option (List Char)) :=
  ocrFromText lm (normalize_rows_char rows)

/-- `HashMap::insert` on the letter map (lib.rs line 111): later insertions
overwrite earlier ones for the same key. -/
def lmInsert (m : Nat → Option Char) (id : Nat) (c : Char) : Nat → Option Char :=
  fun k => if k = id then some c else m k

/-- `populate_letter_map` (lib.rs lines 101-113): segment the trimmed
rendering, `unwrap` the result (`none` models the panic, either of `unwrap`
on `None` or of `map_to_id` itself), zip the identifiers positionally with
the ground-truth letters (Rust's `zip` stops at the shorter side), and insert
every pair. -/
def populate_letter_map (lm : Nat → Option Char) (letter_forms letters : List Char) :
    Option (Nat → Option Char) :=
  match map_to_id (rustTrim letter_forms) with
  | none => none
  | some none => none
  | some (some ids) => some ((ids.zip letters).foldl (fun m p => lmInsert m p.1 p.2) lm)

/-- The empty letter map, used to instantiate claims that hold for every
letter map at concrete inputs. -/
def lmEmpty : Nat → Option Char := fun _ => none

/-- The canonical column pattern of a logical grid: for each `x < width`, the
column of cells read top to bottom. -/
def gridCols (grid : List (List Bool)) (width : Nat) : List (List Bool) :=
  (List.range width).map (fun x =>
    (List.range grid.length).map (fun y => (grid.getD y []).getD x false))

/-- A text consisting of the given line-break-free rows, each terminated by
exactly one line break (used to state the normalizer-shape claims). -/
def rowsTerminated (rows : List (List Char)) (t : List Char) : Prop :=
  (∀ r ∈ rows, '\n' ∉ r) ∧ t = rows.flatMap (fun r => r ++ ['\n'])

/-! ### Generic list lemmas -/

theorem flatMap_congr {α β : Type} {l : List α} {f g : α → List β}
    (h : ∀ a ∈ l, f a = g a) : l.flatMap f = l.flatMap g := by
  rw [List.flatMap_def, List.flatMap_def, List.map_congr_left h]

theorem list_mapM_option_eq_some {α β : Type} (f : α → Option β) (g : α → β) :
    ∀ l : List α, (∀ a ∈ l, f a = some (g a)) → l.mapM f = some (l.map g) := by
  intro l
  induction l with
  | nil => intro _; rfl
  | cons a l ih =>
    intro h
    rw [List.mapM_cons, h a (List.mem_cons_self a l), ih (fun b hb => h b (List.mem_cons_of_mem a hb))]
    rfl

theorem getD_map_lt {α β : Type} (f : α → β) {l : List α} {n : Nat}
    (h : n < l.length) (d : α) (d' : β) :
    (l.map f).getD n d' = f (l.getD n d) := by
  simp [List.getD_eq_getElem?_getD, List.getElem?_map, List.getElem?_eq_getElem h]

theorem range_map_getD {α β : Type} (d : α) (F : α → β) :
    ∀ r : List α, (List.range r.length).map (fun x => F (r.getD x d)) = r.map F := by
  intro r
  induction r with
  | nil => simp
  | cons a r ih =>
    rw [List.length_cons, List.range_succ_eq_map, List.map_cons, List.map_map]
    simp only [Function.comp_def, List.getD_cons_succ, List.getD_cons_zero]
    rw [ih, List.map_cons]

theorem getD_dropLast {α : Type} {l : List α} {n : Nat} (h : n < l.length - 1) (d : α) :
    l.dropLast.getD n d = l.getD n d := by
  rw [List.dropLast_eq_take, List.getD_eq_getElem?_getD, List.getD_eq_getElem?_getD,
    List.getElem?_take, if_pos h]

/-! ### Lemmas about rustTrim -/

theorem dropWhile_head_false {α : Type} {p : α → Bool} :
    ∀ {l m : List α} {c : α}, l.dropWhile p = c :: m → p c = false := by
  intro l
  induction l with
  | nil => intro m c h; simp [List.dropWhile] at h
  | cons a l ih =>
    intro m c h
    rw [List.dropWhile_cons] at h
    by_cases hp : p a = true
    · exact ih (by simpa [hp] using h)
    · rw [if_neg hp] at h
      injection h with h1 h2
      subst h1
      simpa using hp

theorem trimBack_decomp (l : List Char) :
    l = (l.reverse.dropWhile isWs).reverse ++ (l.reverse.takeWhile isWs).reverse := by
  conv_lhs => rw [← List.reverse_reverse l, ← List.takeWhile_append_dropWhile isWs l.reverse]
  exact List.reverse_append _ _

theorem rustTrim_head_not_ws {s : List Char} {c : Char} {m : List Char}
    (h : rustTrim s = c :: m) : isWs c = false := by
  have hdecomp := trimBack_decomp (s.dropWhile isWs)
  rw [show ((s.dropWhile isWs).reverse.dropWhile isWs).reverse = rustTrim s from rfl, h,
    List.cons_append] at hdecomp
  exact dropWhile_head_false hdecomp

theorem rustTrim_eq_dropLast {s front : List Char} {c1 : Char}
    (hhead : ∃ c0 t, s = c0 :: t ∧ isWs c0 = false)
    (hback : s = front ++ [c1, '\n']) (h1 : isWs c1 = false) :
    rustTrim s = s.dropLast := by
  obtain ⟨c0, t, hshape, h0⟩ := hhead
  have hfront : s.dropWhile isWs = s := by
    rw [hshape, List.dropWhile_cons, if_neg (by simp [h0])]
  unfold rustTrim
  rw [hfront, hback, List.reverse_append]
  have h2 : ([c1, '\n'] : List Char).reverse = ['\n', c1] := rfl
  rw [h2, List.cons_append, List.cons_append, List.nil_append]
  rw [List.dropWhile_cons, if_pos (by decide), List.dropWhile_cons, if_neg (by simp [h1])]
  rw [List.reverse_cons, List.reverse_reverse]
  have h3 : front ++ [c1, '\n'] = (front ++ [c1]) ++ ['\n'] := by simp
  rw [h3, List.dropLast_concat]

/-! ### Lemmas about findNewline -/

theorem findNewline_eq_none :
    ∀ {l : List Char}, (∀ c ∈ l, c ≠ '\n') → findNewline l = none := by
  intro l
  induction l with
  | nil => intro _; rfl
  | cons a l ih =>
    intro h
    simp only [findNewline, if_neg (h a (List.mem_cons_self a l)),
      ih (fun c hc => h c (List.mem_cons_of_mem a hc))]
    rfl

theorem findNewline_append (post : List Char) :
    ∀ {pre : List Char}, (∀ c ∈ pre, c ≠ '\n') →
    findNewline (pre ++ '\n' :: post) = some pre.length := by
  intro pre
  induction pre with
  | nil => intro _; simp [findNewline]
  | cons a pre ih =>
    intro h
    simp only [List.cons_append, findNewline, if_neg (h a (List.mem_cons_self a pre))]
    rw [show pre.append ('\n' :: post) = pre ++ '\n' :: post from rfl,
      ih (fun c hc => h c (List.mem_cons_of_mem a hc))]
    rfl

theorem getElem?_eq_some_getD {α : Type} {l : List α} {n : Nat} (h : n < l.length) (d : α) :
    l[n]? = some (l.getD n d) := by
  rw [List.getD_eq_getElem?_getD, List.getElem?_eq_getElem h]
  rfl

/-! ### Structure of the canonical text produced by the rows-of-bools normalizer -/

theorem boolChar_ne_newline (b : Bool) : boolChar b ≠ '\n' := by
  cases b <;> decide

theorem boolChar_not_ws (b : Bool) : isWs (boolChar b) = false := by
  cases b <;> decide

theorem boolChar_beq_hash (b : Bool) : (boolChar b == '#') = b := by
  cases b <;> decide

theorem normalize_rows_bool_cons (r : List Bool) (rest : List (List Bool)) :
    normalize_rows_bool (r :: rest) = (r.map boolChar ++ ['\n']) ++ normalize_rows_bool rest := by
  simp [normalize_rows_bool, List.flatMap_cons]

theorem normalize_rows_bool_length {w : Nat} :
    ∀ {grid : List (List Bool)}, (∀ r ∈ grid, r.length = w) →
    (normalize_rows_bool grid).length = grid.length * (w + 1) := by
  intro grid
  induction grid with
  | nil => intro _; simp [normalize_rows_bool]
  | cons r rest ih =>
    intro h
    rw [normalize_rows_bool_cons, List.length_append, List.length_append, List.length_map,
      h r (List.mem_cons_self r rest), ih (fun a ha => h a (List.mem_cons_of_mem r ha)),
      List.length_cons]
    simp
    ring

theorem normalize_rows_bool_getD {w : Nat} (d : Char) :
    ∀ {grid : List (List Bool)} {x y : Nat}, (∀ r ∈ grid, r.length = w) →
    x < w → y < grid.length →
    (normalize_rows_bool grid).getD (x + y * (w + 1)) d
      = boolChar ((grid.getD y []).getD x false) := by
  intro grid
  induction grid with
  | nil => intro x y _ _ hy; simp at hy
  | cons r rest ih =>
    intro x y h hx hy
    have hr : r.length = w := h r (List.mem_cons_self r rest)
    rw [normalize_rows_bool_cons]
    cases y with
    | zero =>
      simp only [Nat.zero_mul, Nat.add_zero]
      have hxlen : x < (r.map boolChar ++ ['\n']).length := by
        simp [hr]; omega
      rw [List.getD_append _ _ _ _ hxlen]
      have hx2 : x < (r.map boolChar).length := by simp [hr]; omega
      rw [List.getD_append _ _ _ _ hx2, List.getD_cons_zero,
        getD_map_lt boolChar (by rw [hr]; exact hx) false d]
    | succ y =>
      have hlen : (r.map boolChar ++ ['\n']).length = w + 1 := by simp [hr]
      have hge : (r.map boolChar ++ ['\n']).length ≤ x + (y + 1) * (w + 1) := by
        rw [hlen]
        calc w + 1 ≤ (y + 1) * (w + 1) := Nat.le_mul_of_pos_left _ (Nat.succ_pos y)
        _ ≤ x + (y + 1) * (w + 1) := Nat.le_add_left _ _
      rw [List.getD_append_right _ _ _ _ hge, hlen]
      have hsub : x + (y + 1) * (w + 1) - (w + 1) = x + y * (w + 1) := by
        have h2 : (y + 1) * (w + 1) = y * (w + 1) + (w + 1) := by ring
        omega
      rw [hsub, List.getD_cons_succ]
      exact ih (fun a ha => h a (List.mem_cons_of_mem r ha)) hx (by simpa using hy)

theorem normalize_rows_bool_ne_nil (r : List Bool) (rest : List (List Bool)) :
    normalize_rows_bool (r :: rest) ≠ [] := by
  rw [normalize_rows_bool_cons]
  simp

theorem normalize_rows_bool_back {w : Nat} (hw : 0 < w) :
    ∀ {grid : List (List Bool)}, grid ≠ [] → (∀ r ∈ grid, r.length = w) →
    ∃ front b, normalize_rows_bool grid = front ++ [boolChar b, '\n'] := by
  intro grid
  induction grid with
  | nil => intro h _; exact absurd rfl h
  | cons r rest ih =>
    intro _ h
    cases rest with
    | nil =>
      have hr : r.length = w := h r (List.mem_cons_self r [])
      rcases List.eq_nil_or_concat r with hre | ⟨r', b, rfl⟩
      · rw [hre] at hr; simp at hr; omega
      · refine ⟨r'.map boolChar, b, ?_⟩
        rw [normalize_rows_bool_cons]
        simp [normalize_rows_bool, List.map_append]
    | cons r2 rest2 =>
      obtain ⟨front, b, hfb⟩ := ih (by simp) (fun a ha => h a (List.mem_cons_of_mem r ha))
      refine ⟨(r.map boolChar ++ ['\n']) ++ front, b, ?_⟩
      rw [normalize_rows_bool_cons, hfb]
      simp [List.append_assoc]

theorem rustTrim_normalize_rows_bool {w : Nat} (hw : 0 < w)
    {grid : List (List Bool)} (hg : grid ≠ []) (h : ∀ r ∈ grid, r.length = w) :
    rustTrim (normalize_rows_bool grid) = (normalize_rows_bool grid).dropLast := by
  obtain ⟨front, b, hback⟩ := normalize_rows_bool_back hw hg h
  cases grid with
  | nil => exact absurd rfl hg
  | cons r rest =>
    have hr : r.length = w := h r (List.mem_cons_self r rest)
    cases r with
    | nil => rw [List.length_nil] at hr; omega
    | cons c r' =>
      refine rustTrim_eq_dropLast ?_ hback (boolChar_not_ws b)
      refine ⟨boolChar c, r'.map boolChar ++ '\n' :: normalize_rows_bool rest, ?_,
        boolChar_not_ws c⟩
      rw [normalize_rows_bool_cons]
      simp

theorem heightUsed_canon {w : Nat} {grid : List (List Bool)} (hw : 0 < w)
    (h : ∀ r ∈ grid, r.length = w) (h1 : 1 ≤ grid.length) (h2 : grid.length ≤ w) :
    heightUsed (normalize_rows_bool grid).dropLast w = grid.length := by
  unfold heightUsed
  rw [List.length_dropLast, normalize_rows_bool_length h]
  have e1 : grid.length * (w + 1) - 1 = w * grid.length + (grid.length - 1) := by
    have e0 : grid.length * (w + 1) = w * grid.length + grid.length := by ring
    omega
  rw [e1, Nat.mul_add_div hw, Nat.div_eq_of_lt (by omega)]
  omega

theorem idx_lt_trimmed {w n x y : Nat} (hx : x < w) (hy : y < n) (hn : 1 ≤ n) :
    x + y * (w + 1) < n * (w + 1) - 1 := by
  obtain ⟨m, rfl⟩ : ∃ m, n = m + 1 := ⟨n - 1, by omega⟩
  have e1 : (m + 1) * (w + 1) = m * (w + 1) + w + 1 := by ring
  have hy2 : y * (w + 1) ≤ m * (w + 1) := Nat.mul_le_mul_right _ (by omega)
  omega

/-! ### The flat representations produce the same text as the row representations -/

theorem flat_chunks {α : Type} (g : α → Char) (d : α) (w : Nat) (hw : 0 < w) :
    ∀ grid : List (List α), (∀ r ∈ grid, r.length = w) →
    (List.range (grid.flatten.length / w)).flatMap (fun y =>
      ((List.range w).map (fun x => g (grid.flatten.getD (x + y * w) d))) ++ ['\n'])
    = grid.flatMap (fun r => r.map g ++ ['\n']) := by
  intro grid
  induction grid with
  | nil => intro _; simp [Nat.zero_div]
  | cons r rest ih =>
    intro h
    have hr : r.length = w := h r (List.mem_cons_self r rest)
    have hL : (r :: rest).flatten = r ++ rest.flatten := rfl
    rw [hL]
    have hlen : (r ++ rest.flatten).length = rest.flatten.length + w := by
      rw [List.length_append, hr]; omega
    rw [hlen, Nat.add_div_right _ hw, List.range_succ_eq_map, List.flatMap_cons,
      List.flatMap_map]
    have hchunk : ((List.range w).map
        (fun x => g ((r ++ rest.flatten).getD (x + 0 * w) d))) = r.map g := by
      have h1 : ∀ x ∈ List.range w,
          g ((r ++ rest.flatten).getD (x + 0 * w) d) = g (r.getD x d) := by
        intro x hx
        rw [List.mem_range] at hx
        have hx0 : x + 0 * w = x := by omega
        rw [hx0, List.getD_append _ _ _ _ (by rw [hr]; exact hx)]
      rw [List.map_congr_left h1, ← hr, range_map_getD d g r]
    rw [hchunk]
    have hrest : ∀ y ∈ List.range (rest.flatten.length / w),
        ((List.range w).map
          (fun x => g ((r ++ rest.flatten).getD (x + Nat.succ y * w) d))) ++ ['\n']
        = ((List.range w).map
          (fun x => g (rest.flatten.getD (x + y * w) d))) ++ ['\n'] := by
      intro y hy
      congr 1
      apply List.map_congr_left
      intro x hx
      have hmul : Nat.succ y * w = y * w + w := Nat.succ_mul y w
      have hge : r.length ≤ x + Nat.succ y * w := by rw [hr]; omega
      rw [List.getD_append_right _ _ _ _ hge]
      congr 2
      rw [hr]
      omega
    rw [flatMap_congr hrest, ih (fun a ha => h a (List.mem_cons_of_mem r ha)),
      List.flatMap_cons]

theorem rows_char_of_bool (grid : List (List Bool)) :
    normalize_rows_char (grid.map (fun r => r.map boolChar)) = normalize_rows_bool grid := by
  unfold normalize_rows_char normalize_rows_bool
  rw [List.flatMap_map]

theorem flat_bool_text {w : Nat} (hw : 0 < w) {grid : List (List Bool)}
    (h : ∀ r ∈ grid, r.length = w) :
    normalize_flat_bool grid.flatten w = some (normalize_rows_bool grid) := by
  unfold normalize_flat_bool
  rw [if_neg (by omega)]
  exact congrArg some (flat_chunks boolChar false w hw grid h)

theorem flat_char_text {w : Nat} (hw : 0 < w) {grid : List (List Char)}
    (h : ∀ r ∈ grid, r.length = w) :
    normalize_flat_char grid.flatten w = some (normalize_rows_char grid) := by
  unfold normalize_flat_char
  rw [if_neg (by omega)]
  have h2 := flat_chunks (fun c => c) ' ' w hw grid h
  simp only [List.map_id'] at h2
  exact congrArg some h2

/-! ### Scanning the canonical text of a rectangular grid -/

theorem findNewline_canon_dropLast {w : Nat} {r : List Bool} {rest : List (List Bool)}
    (hr : r.length = w) (hrest : rest ≠ []) :
    findNewline (normalize_rows_bool (r :: rest)).dropLast = some w := by
  cases rest with
  | nil => exact absurd rfl hrest
  | cons r2 rest2 =>
    rw [normalize_rows_bool_cons,
      List.dropLast_append_of_ne_nil _ (normalize_rows_bool_ne_nil r2 rest2),
      List.append_assoc, List.singleton_append,
      findNewline_append _ (fun c hc => by
        obtain ⟨b, _, rfl⟩ := List.mem_map.mp hc
        exact boolChar_ne_newline b),
      List.length_map, hr]

theorem foldl_scanStep_blank {h : Nat} :
    ∀ {cols : List (List Bool)}, (∀ col ∈ cols, col.all (fun b => !b) = true) →
    cols.foldl (scanStep h) ⟨0, 0, []⟩ = ⟨0, 0, []⟩ := by
  intro cols
  induction cols with
  | nil => intro _; rfl
  | cons c cs ih =>
    intro hall
    rw [List.foldl_cons]
    have hstep : scanStep h ⟨0, 0, []⟩ c = ⟨0, 0, []⟩ := by
      unfold scanStep
      rw [if_pos (hall c (List.mem_cons_self c cs))]
      simp
    rw [hstep]
    exact ih (fun a ha => hall a (List.mem_cons_of_mem c ha))

theorem getD_mem_or_default {α : Type} (l : List α) (n : Nat) (d : α) :
    l.getD n d ∈ l ∨ l.getD n d = d := by
  by_cases h : n < l.length
  · left
    rw [List.getD_eq_getElem?_getD, List.getElem?_eq_getElem h]
    exact List.getElem_mem h
  · right
    rw [List.getD_eq_getElem?_getD, List.getElem?_eq_none_iff.mpr (by omega)]
    rfl

theorem getD_blank_grid {grid : List (List Bool)}
    (hall : ∀ r ∈ grid, ∀ b ∈ r, b = false) (y x : Nat) :
    (grid.getD y []).getD x false = false := by
  rcases getD_mem_or_default grid y [] with hmem | hdef
  · rcases getD_mem_or_default (grid.getD y []) x false with hmem2 | hdef2
    · exact hall _ hmem _ hmem2
    · exact hdef2
  · rw [hdef]
    rfl

theorem gridCols_blank {w : Nat} {grid : List (List Bool)}
    (hall : ∀ r ∈ grid, ∀ b ∈ r, b = false) :
    ∀ col ∈ gridCols grid w, col.all (fun b => !b) = true := by
  intro col hcol
  obtain ⟨x, hx, rfl⟩ := List.mem_map.mp hcol
  rw [List.all_eq_true]
  intro b hb
  obtain ⟨y, hy, rfl⟩ := List.mem_map.mp hb
  rw [getD_blank_grid hall y x]
  rfl

theorem map_to_id_canon {w : Nat} (hw : 0 < w) {grid : List (List Bool)}
    (hrect : ∀ r ∈ grid, r.length = w) (hh2 : 2 ≤ grid.length) (hhw : grid.length ≤ w) :
    map_to_id (rustTrim (normalize_rows_bool grid)) =
      some (some (finalIds ((gridCols grid w).foldl (scanStep grid.length) ⟨0, 0, []⟩))) := by
  have hgne : grid ≠ [] := by intro he; rw [he] at hh2; simp at hh2
  have htrim : rustTrim (normalize_rows_bool grid) = (normalize_rows_bool grid).dropLast :=
    rustTrim_normalize_rows_bool hw hgne hrect
  have hfind : findNewline (normalize_rows_bool grid).dropLast = some w := by
    cases grid with
    | nil => exact absurd rfl hgne
    | cons r rest =>
      refine findNewline_canon_dropLast (hrect r (List.mem_cons_self r rest)) ?_
      intro he
      rw [he] at hh2
      simp at hh2
  have hheight : heightUsed (normalize_rows_bool grid).dropLast w = grid.length :=
    heightUsed_canon hw hrect (by omega) hhw
  have hcol : ∀ x ∈ List.range w,
      colOfP (normalize_rows_bool grid).dropLast w grid.length x
        = some ((List.range grid.length).map (fun y => (grid.getD y []).getD x false)) := by
    intro x hx
    rw [List.mem_range] at hx
    unfold colOfP
    apply list_mapM_option_eq_some
    intro y hy
    rw [List.mem_range] at hy
    have hidx2 : x + y * (w + 1) < (normalize_rows_bool grid).length - 1 := by
      rw [normalize_rows_bool_length hrect]
      exact idx_lt_trimmed hx hy (by omega)
    have hidx : x + y * (w + 1) < (normalize_rows_bool grid).dropLast.length := by
      rw [List.length_dropLast]
      exact hidx2
    rw [getElem?_eq_some_getD hidx '.', getD_dropLast hidx2 '.',
      normalize_rows_bool_getD '.' hrect hx hy, Option.map_some', boolChar_beq_hash]
  have houter : (List.range w).mapM
      (fun x => colOfP (normalize_rows_bool grid).dropLast w grid.length x)
      = some (gridCols grid w) := by
    unfold gridCols
    exact list_mapM_option_eq_some _ _ _ hcol
  rw [htrim]
  simp only [map_to_id, hfind, hheight]
  rw [if_neg (by omega : ¬ w = 0), houter]

/-! ### Helper lemmas shared by the claim theorems -/

theorem ocr_reps_eq (lm : Nat → Option Char) {w : Nat} (hw : 0 < w)
    {grid : List (List Bool)} (hrect : ∀ r ∈ grid, r.length = w) :
    ocr_str lm (normalize_rows_bool grid) = ocr_rows_bool lm grid ∧
    ocr_flat_bool lm grid.flatten w = ocr_rows_bool lm grid ∧
    ocr_flat_char lm ((grid.map (fun r => r.map boolChar)).flatten) w = ocr_rows_bool lm grid ∧
    ocr_rows_char lm (grid.map (fun r => r.map boolChar)) = ocr_rows_bool lm grid := by
  have hrect2 : ∀ r ∈ grid.map (fun r => r.map boolChar), r.length = w := by
    intro r hr
    obtain ⟨r0, hr0, rfl⟩ := List.mem_map.mp hr
    rw [List.length_map]
    exact hrect r0 hr0
  refine ⟨rfl, ?_, ?_, ?_⟩
  · unfold ocr_flat_bool
    rw [flat_bool_text hw hrect]
    rfl
  · unfold ocr_flat_char
    rw [flat_char_text hw hrect2, rows_char_of_bool]
    rfl
  · unfold ocr_rows_char
    rw [rows_char_of_bool]
    rfl

theorem ocrFromText_canon_ne_none {w : Nat} (hw : 0 < w) {grid : List (List Bool)}
    (hrect : ∀ r ∈ grid, r.length = w) (hhw : grid.length ≤ w) (lm : Nat → Option Char) :
    ocrFromText lm (normalize_rows_bool grid) ≠ none := by
  cases grid with
  | nil =>
    intro hcon
    have h0 : ocrFromText lm (normalize_rows_bool []) = some none := rfl
    rw [h0] at hcon
    simp at hcon
  | cons r rest =>
    cases rest with
    | nil =>
      have htrim := rustTrim_normalize_rows_bool hw (by simp) hrect
      have hdrop : (normalize_rows_bool [r]).dropLast = r.map boolChar := by
        rw [normalize_rows_bool_cons]
        have h1 : normalize_rows_bool ([] : List (List Bool)) = [] := rfl
        rw [h1, List.append_nil, List.dropLast_concat]
      have hfind : findNewline (r.map boolChar) = none :=
        findNewline_eq_none (fun c hc => by
          obtain ⟨b, _, rfl⟩ := List.mem_map.mp hc
          exact boolChar_ne_newline b)
      have hmm : map_to_id (rustTrim (normalize_rows_bool [r])) = some none := by
        rw [htrim, hdrop]
        simp [map_to_id, hfind]
      unfold ocrFromText
      rw [hmm]
      simp
    | cons r2 rest2 =>
      have hmm := map_to_id_canon hw hrect
        (by rw [List.length_cons, List.length_cons]; omega) hhw
      unfold ocrFromText
      rw [hmm]
      simp

theorem ocrFromText_blank {w : Nat} (hw : 0 < w) {grid : List (List Bool)}
    (hrect : ∀ r ∈ grid, r.length = w) (hh2 : 2 ≤ grid.length) (hhw : grid.length ≤ w)
    (hall : ∀ r ∈ grid, ∀ b ∈ r, b = false) (lm : Nat → Option Char) :
    ocrFromText lm (normalize_rows_bool grid) = some (some []) := by
  unfold ocrFromText
  rw [map_to_id_canon hw hrect hh2 hhw, foldl_scanStep_blank (gridCols_blank hall)]
  simp [finalIds]

theorem findNewline_zero {c : Char} {m : List Char} (h : findNewline (c :: m) = some 0) :
    c = '\n' := by
  by_cases hc : c = '\n'
  · exact hc
  · exfalso
    simp only [findNewline, if_neg hc] at h
    cases hfm : findNewline m with
    | none => rw [hfm] at h; simp at h
    | some k => rw [hfm] at h; simp at h

theorem map_to_id_cases (s : List Char) :
    (findNewline (rustTrim s) = none ∧ map_to_id (rustTrim s) = some none) ∨
    (findNewline (rustTrim s) ≠ none ∧ (map_to_id (rustTrim s) = none ∨
      ∃ ids, map_to_id (rustTrim s) = some (some ids))) := by
  cases hf : findNewline (rustTrim s) with
  | none =>
    left
    exact ⟨rfl, by simp [map_to_id, hf]⟩
  | some w =>
    right
    refine ⟨by simp, ?_⟩
    have hw : ¬ w = 0 := by
      intro h0
      subst h0
      cases ht : rustTrim s with
      | nil => rw [ht] at hf; simp [findNewline] at hf
      | cons c m =>
        rw [ht] at hf
        have hc : c = '\n' := findNewline_zero hf
        have hnw := rustTrim_head_not_ws ht
        rw [hc] at hnw
        exact absurd hnw (by decide)
    simp only [map_to_id, hf, if_neg hw]
    cases hmm : (List.range w).mapM
        (fun x => colOfP (rustTrim s) w (heightUsed (rustTrim s) w) x) with
    | none => left; rfl
    | some cols => right; exact ⟨_, rfl⟩

theorem findNewline_takeWhile :
    ∀ {t : List Char} {w : Nat}, findNewline t = some w →
    w = (t.takeWhile (fun c => c != '\n')).length := by
  intro t
  induction t with
  | nil => intro w h; simp [findNewline] at h
  | cons c t ih =>
    intro w h
    by_cases hc : c = '\n'
    · subst hc
      simp only [findNewline, if_pos rfl] at h
      injection h with h
      subst h
      rw [List.takeWhile_cons, if_neg (by simp)]
      rfl
    · simp only [findNewline, if_neg hc] at h
      cases hfm : findNewline t with
      | none => rw [hfm] at h; simp at h
      | some k =>
        rw [hfm] at h
        simp only [Option.map_some'] at h
        injection h with h
        rw [List.takeWhile_cons, if_pos (by simp [hc])]
        rw [List.length_cons, ← ih hfm]
        omega

theorem getD_take {α : Type} {l : List α} {n i : Nat} (h : i < n) (d : α) :
    (l.take n).getD i d = l.getD i d := by
  rw [List.getD_eq_getElem?_getD, List.getElem?_take, if_pos h, List.getD_eq_getElem?_getD]

theorem flat_take_generic {α : Type} (g : α → Char) (d : α) (l : List α) (w : Nat)
    (hw : 0 < w) :
    (List.range (l.length / w)).flatMap (fun y =>
      ((List.range w).map (fun x => g (l.getD (x + y * w) d))) ++ ['\n'])
    = (List.range ((l.take (w * (l.length / w))).length / w)).flatMap (fun y =>
      ((List.range w).map
        (fun x => g ((l.take (w * (l.length / w))).getD (x + y * w) d))) ++ ['\n']) := by
  have htn : w * (l.length / w) ≤ l.length := by
    rw [Nat.mul_comm]
    exact Nat.div_mul_le_self _ _
  have hlen : (l.take (w * (l.length / w))).length = w * (l.length / w) := by
    rw [List.length_take]
    omega
  have hdiv : w * (l.length / w) / w = l.length / w := Nat.mul_div_cancel_left _ hw
  rw [hlen, hdiv]
  apply flatMap_congr
  intro y hy
  rw [List.mem_range] at hy
  congr 1
  apply List.map_congr_left
  intro x hx
  rw [List.mem_range] at hx
  have hidx : x + y * w < w * (l.length / w) := by
    have h1 : (y + 1) * w ≤ (l.length / w) * w := Nat.mul_le_mul_right w (by omega)
    have h2 : (y + 1) * w = y * w + w := Nat.succ_mul y w
    have h3 : (l.length / w) * w = w * (l.length / w) := Nat.mul_comm _ _
    omega
  rw [getD_take hidx d]

theorem flat_rows_generic {α : Type} (g : α → Char) (d : α) (l : List α) (w : Nat) :
    ((List.range (l.length / w)).map (fun y =>
        (List.range w).map (fun x => g (l.getD (x + y * w) d)))).flatMap (fun r => r ++ ['\n'])
    = (List.range (l.length / w)).flatMap (fun y =>
        ((List.range w).map (fun x => g (l.getD (x + y * w) d))) ++ ['\n']) := by
  rw [List.flatMap_map]

/-! ### Claim theorems -/

/-- C1 (amended): for every rectangular logical grid rendered with the
canonical markers ('#' for on, '.' for off), decoding through ocr gives the
same result for all five supported representations: canonical text, flat
bools with width, flat chars with width, bool rows, and char rows — for
every letter map.  (As literally stated the claim fails when a char-based
carrier renders off-cells with whitespace; see the counterexample.) -/
theorem C1_representation_equiv (lm : Nat → Option Char) (grid : List (List Bool)) (w : Nat)
    (hw : 0 < w) (hrect : ∀ r ∈ grid, r.length = w) :
    ocr_str lm (normalize_rows_bool grid) = ocr_rows_bool lm grid ∧
    ocr_flat_bool lm grid.flatten w = ocr_rows_bool lm grid ∧
    ocr_flat_char lm ((grid.map (fun r => r.map boolChar)).flatten) w = ocr_rows_bool lm grid ∧
    ocr_rows_char lm (grid.map (fun r => r.map boolChar)) = ocr_rows_bool lm grid :=
  ocr_reps_eq lm hw hrect

/-- C1 counterexample: the all-off 2x2 logical grid carried by char rows
using spaces for off-cells decodes to the failure signal, while the same
logical grid carried by bool rows decodes to the empty string — the five
representations do not always agree. -/
theorem C1_counterexample :
    ocr_rows_char lmEmpty [[' ', ' '], [' ', ' ']] = some none ∧
    ocr_rows_bool lmEmpty [[false, false], [false, false]] = some (some []) ∧
    ocr_rows_char lmEmpty [[' ', ' '], [' ', ' ']]
      ≠ ocr_rows_bool lmEmpty [[false, false], [false, false]] := by
  decide

/-- C1 witness: the amended equivalence at a concrete 2x2 grid. -/
theorem C1_witness :
    0 < 2 ∧ (∀ r ∈ [[true, false], [false, true]], r.length = 2) ∧
    ocr_flat_bool lmEmpty ([[true, false], [false, true]] : List (List Bool)).flatten 2
      = ocr_rows_bool lmEmpty [[true, false], [false, true]] :=
  ⟨by decide, by decide,
    (C1_representation_equiv lmEmpty [[true, false], [false, true]] 2 (by decide)
      (by decide)).2.1⟩

/-- C2 (amended): for every well-formed (rectangular) input whose row count
is at most its width, ocr never panics — in every one of the five supported
representations the scan's index image[x + y * (width + 1)] stays within the
trimmed canonical text.  (As literally stated the claim fails for rectangular
grids with more rows than columns; see the counterexample.) -/
theorem C2_no_panic_bounded (lm : Nat → Option Char) (grid : List (List Bool)) (w : Nat)
    (hw : 0 < w) (hrect : ∀ r ∈ grid, r.length = w) (hhw : grid.length ≤ w) :
    ocr_rows_bool lm grid ≠ none ∧
    ocr_str lm (normalize_rows_bool grid) ≠ none ∧
    ocr_rows_char lm (grid.map (fun r => r.map boolChar)) ≠ none ∧
    ocr_flat_bool lm grid.flatten w ≠ none ∧
    ocr_flat_char lm ((grid.map (fun r => r.map boolChar)).flatten) w ≠ none := by
  obtain ⟨e1, e2, e3, e4⟩ := ocr_reps_eq lm hw hrect
  have hcore : ocr_rows_bool lm grid ≠ none := ocrFromText_canon_ne_none hw hrect hhw lm
  exact ⟨hcore, by rw [e1]; exact hcore, by rw [e4]; exact hcore, by rw [e2]; exact hcore,
    by rw [e3]; exact hcore⟩

/-- C2 counterexample: the well-formed rectangular 3x1 grid of on-cells makes
ocr read index x + y * (width + 1) past the end of the trimmed text, i.e. the
Rust code panics (modelled by the outer none). -/
theorem C2_counterexample :
    (∀ r ∈ [[true], [true], [true]], r.length = 1) ∧
    ocr_rows_bool lmEmpty [[true], [true], [true]] = none := by
  decide

/-- C2 witness: the amended no-panic guarantee at a concrete 2x2 grid. -/
theorem C2_witness :
    0 < 2 ∧ (∀ r ∈ [[true, true], [false, true]], r.length = 2) ∧
    ([[true, true], [false, true]] : List (List Bool)).length ≤ 2 ∧
    ocr_rows_bool lmEmpty [[true, true], [false, true]] ≠ none :=
  ⟨by decide, by decide, by decide,
    (C2_no_panic_bounded lmEmpty [[true, true], [false, true]] 2 (by decide) (by decide)
      (by decide)).1⟩

/-- C3 (amended): in the segmenter, the grid width used is the index of the
first line break, and the grid height used equals the total character count
integer-divided by width — not by (width + 1) as the claim stated; see the
counterexample. -/
theorem C3_width_height (t : List Char) (w : Nat) (hfind : findNewline t = some w) :
    w = (t.takeWhile (fun c => c != '\n')).length ∧ heightUsed t w = t.length / w :=
  ⟨findNewline_takeWhile hfind, rfl⟩

/-- C3 counterexample: on the trimmed canonical grid "##\n##" the width is 2
and the height used by the code is len / width = 5 / 2 = 2, whereas the
claimed formula len / (width + 1) gives 5 / 3 = 1. -/
theorem C3_counterexample :
    findNewline ['#', '#', '\n', '#', '#'] = some 2 ∧
    heightUsed ['#', '#', '\n', '#', '#'] 2 = 2 ∧
    ['#', '#', '\n', '#', '#'].length / (2 + 1) = 1 ∧
    heightUsed ['#', '#', '\n', '#', '#'] 2
      ≠ ['#', '#', '\n', '#', '#'].length / (2 + 1) := by
  decide

/-- C3 witness: the amended width/height formulas at a concrete text. -/
theorem C3_witness :
    findNewline ['#', '\n', '#'] = some 1 ∧
    1 = (['#', '\n', '#'].takeWhile (fun c => c != '\n')).length ∧
    heightUsed ['#', '\n', '#'] 1 = ['#', '\n', '#'].length / 1 :=
  ⟨by decide, (C3_width_height ['#', '\n', '#'] 1 (by decide)).1,
    (C3_width_height ['#', '\n', '#'] 1 (by decide)).2⟩

/-- C4 (amended): catalogue construction does not abort on an identifier
count different from the ground-truth letter count; populate_letter_map
aborts exactly when segmentation of the trimmed rendering fails (panic or
None from map_to_id), and otherwise completes, pairing identifiers with
letters only up to the shorter of the two sequences (zip truncation). -/
theorem C4_populate_no_abort (lm : Nat → Option Char) (letter_forms letters : List Char) :
    (∀ ids, map_to_id (rustTrim letter_forms) = some (some ids) →
      populate_letter_map lm letter_forms letters
        = some ((ids.zip letters).foldl (fun m p => lmInsert m p.1 p.2) lm)) ∧
    (populate_letter_map lm letter_forms letters = none ↔
      map_to_id (rustTrim letter_forms) = none ∨
      map_to_id (rustTrim letter_forms) = some none) := by
  constructor
  · intro ids hids
    unfold populate_letter_map
    rw [hids]
  · unfold populate_letter_map
    cases hm : map_to_id (rustTrim letter_forms) with
    | none => simp
    | some o =>
      cases o with
      | none => simp
      | some ids => simp

/-- C4 counterexample: a reference sheet segmenting to one identifier paired
with a two-letter ground truth string completes catalogue construction
(no abort), inserting only the one truncated pair 15 -> 'A'. -/
theorem C4_counterexample :
    map_to_id (rustTrim ['#', '#', '\n', '#', '#']) = some (some [15]) ∧
    (['A', 'B'] : List Char).length = 2 ∧
    (populate_letter_map lmEmpty ['#', '#', '\n', '#', '#'] ['A', 'B']).isSome = true ∧
    (populate_letter_map lmEmpty ['#', '#', '\n', '#', '#'] ['A', 'B']).map (fun m => m 15)
      = some (some 'A') := by
  refine ⟨by decide, by decide, by decide, ?_⟩
  rfl

/-- C4 witness: the amended behaviour at a concrete matching sheet. -/
theorem C4_witness :
    map_to_id (rustTrim ['#', '#', '\n', '#', '#']) = some (some [15]) ∧
    populate_letter_map lmEmpty ['#', '#', '\n', '#', '#'] ['A']
      = some (([15].zip ['A']).foldl (fun m p => lmInsert m p.1 p.2) lmEmpty) :=
  ⟨by decide, (C4_populate_no_abort lmEmpty ['#', '#', '\n', '#', '#'] ['A']).1 [15] (by decide)⟩

/-- C5 (amended): the four Vec-based normalizers terminate every row,
including the last, with exactly one line break, and no normalizer trims
anything; but the &str normalizer is the identity and so gives no
line-break-termination guarantee (see the counterexample). -/
theorem C5_normalizer_shape :
    (∀ s, normalize_str s = s) ∧
    (∀ rows, (∀ r ∈ rows, '\n' ∉ r) → rowsTerminated rows (normalize_rows_char rows)) ∧
    (∀ grid : List (List Bool),
      rowsTerminated (grid.map (fun r => r.map boolChar)) (normalize_rows_bool grid)) ∧
    (∀ (bools : List Bool) (w : Nat), 0 < w → ∃ t rows,
      normalize_flat_bool bools w = some t ∧ rowsTerminated rows t ∧
      rows.length = bools.length / w) ∧
    (∀ (chars : List Char) (w : Nat), 0 < w → (∀ c ∈ chars, c ≠ '\n') → ∃ t rows,
      normalize_flat_char chars w = some t ∧ rowsTerminated rows t ∧
      rows.length = chars.length / w) := by
  refine ⟨fun s => rfl, ?_, ?_, ?_, ?_⟩
  · intro rows h
    exact ⟨h, rfl⟩
  · intro grid
    refine ⟨?_, (rows_char_of_bool grid).symm⟩
    intro r hr
    obtain ⟨r0, _, rfl⟩ := List.mem_map.mp hr
    intro hmem
    obtain ⟨b, _, hbc⟩ := List.mem_map.mp hmem
    exact boolChar_ne_newline b hbc
  · intro bools w hw
    refine ⟨_, (List.range (bools.length / w)).map (fun y =>
        (List.range w).map (fun x => boolChar (bools.getD (x + y * w) false))),
      ?_, ⟨?_, (flat_rows_generic boolChar false bools w).symm⟩, by simp⟩
    · unfold normalize_flat_bool
      rw [if_neg (by omega)]
    · intro r hr
      obtain ⟨y, hy, rfl⟩ := List.mem_map.mp hr
      intro hmem
      obtain ⟨x, hx, hbc⟩ := List.mem_map.mp hmem
      exact boolChar_ne_newline _ hbc
  · intro chars w hw hfree
    refine ⟨_, (List.range (chars.length / w)).map (fun y =>
        (List.range w).map (fun x => chars.getD (x + y * w) ' ')),
      ?_, ⟨?_, (flat_rows_generic (fun c => c) ' ' chars w).symm⟩, by simp⟩
    · unfold normalize_flat_char
      rw [if_neg (by omega)]
    · intro r hr
      obtain ⟨y, hy, rfl⟩ := List.mem_map.mp hr
      intro hmem
      obtain ⟨x, hx, hcell⟩ := List.mem_map.mp hmem
      rcases getD_mem_or_default chars (x + y * w) ' ' with hmem2 | hdef
      · exact hfree _ hmem2 hcell
      · rw [hdef] at hcell
        exact absurd hcell (by decide)

/-- C5 counterexample: the &str normalizer is the identity, so the one-row
text "##" comes out without any terminating line break. -/
theorem C5_counterexample :
    normalize_str ['#', '#'] = ['#', '#'] ∧
    (normalize_str ['#', '#']).getLast? = some '#' ∧
    (normalize_str ['#', '#']).getLast? ≠ some '\n' := by
  decide

/-- C5 witness: the amended shape guarantees at concrete inputs. -/
theorem C5_witness :
    rowsTerminated [['a']] (normalize_rows_char [['a']]) ∧
    (∃ t rows, normalize_flat_bool [true, false, true] 2 = some t ∧
      rowsTerminated rows t ∧ rows.length = [true, false, true].length / 2) :=
  ⟨C5_normalizer_shape.2.1 [['a']] (by decide),
   C5_normalizer_shape.2.2.2.1 [true, false, true] 2 (by decide)⟩

/-- C6 (confirmed): during segmentation, a non-blank column at height exactly
6 when the per-letter column counter has reached 5 closes the accumulating
identifier, appends it, and starts a new identifier at that column (counter
restarts at 1); in every other situation a non-blank column never closes an
identifier — it only extends the accumulator and bumps the counter, so for
heights other than 6 identifiers close only at a blank column or at the end
of the scan. -/
theorem C6_height6_force_close (h : Nat) (s : ScanState) (col : List Bool)
    (hcol : col.all (fun b => !b) = false) :
    (h = 6 ∧ s.letterWidth = 5 →
      scanStep h s col = ⟨colFold 0 col, 1, s.ids ++ [s.id]⟩) ∧
    (¬(h = 6 ∧ s.letterWidth = 5) →
      scanStep h s col = ⟨colFold s.id col, s.letterWidth + 1, s.ids⟩) := by
  unfold scanStep
  rw [if_neg (by rw [hcol]; simp)]
  constructor
  · intro hc
    rw [if_pos hc]
  · intro hc
    rw [if_neg hc]

/-- C6 witness: the force-close at height 6 with counter 5, and the plain
accumulate at height 10 with the same state. -/
theorem C6_witness :
    ([true] : List Bool).all (fun b => !b) = false ∧
    scanStep 6 ⟨9, 5, []⟩ [true] = ⟨colFold 0 [true], 1, ([] : List Nat) ++ [9]⟩ ∧
    scanStep 10 ⟨9, 5, []⟩ [true] = ⟨colFold 9 [true], 5 + 1, []⟩ :=
  ⟨by decide,
   (C6_height6_force_close 6 ⟨9, 5, []⟩ [true] (by decide)).1 ⟨rfl, rfl⟩,
   (C6_height6_force_close 10 ⟨9, 5, []⟩ [true] (by decide)).2 (by simp)⟩

/-- C7 (amended): every all-blank rectangular grid with at least two rows and
row count at most its width decodes to Some of the empty string in all five
representations (rendering off-cells canonically).  As literally stated the
claim fails: a one-row all-blank grid trims to a text with no line break and
ocr returns the failure signal None — see the counterexample. -/
theorem C7_all_blank (lm : Nat → Option Char) (grid : List (List Bool)) (w : Nat)
    (hw : 0 < w) (hrect : ∀ r ∈ grid, r.length = w) (hh2 : 2 ≤ grid.length)
    (hhw : grid.length ≤ w) (hall : ∀ r ∈ grid, ∀ b ∈ r, b = false) :
    ocr_rows_bool lm grid = some (some []) ∧
    ocr_str lm (normalize_rows_bool grid) = some (some []) ∧
    ocr_rows_char lm (grid.map (fun r => r.map boolChar)) = some (some []) ∧
    ocr_flat_bool lm grid.flatten w = some (some []) ∧
    ocr_flat_char lm ((grid.map (fun r => r.map boolChar)).flatten) w = some (some []) := by
  obtain ⟨e1, e2, e3, e4⟩ := ocr_reps_eq lm hw hrect
  have hcore : ocr_rows_bool lm grid = some (some []) :=
    ocrFromText_blank hw hrect hh2 hhw hall lm
  exact ⟨hcore, e1.trans hcore, e4.trans hcore, e2.trans hcore, e3.trans hcore⟩

/-- C7 counterexample: on the all-blank one-row grid (flat bools
[false, false] with width 2) ocr returns some none — the Rust None failure
signal — rather than Some of the empty string. -/
theorem C7_counterexample :
    (∀ b ∈ [false, false], b = false) ∧
    ocr_flat_bool lmEmpty [false, false] 2 = some none ∧
    ocr_flat_bool lmEmpty [false, false] 2 ≠ some (some []) := by
  decide

/-- C7 witness: the amended guarantee at the concrete all-blank 2x2 grid. -/
theorem C7_witness :
    0 < 2 ∧ 2 ≤ ([[false, false], [false, false]] : List (List Bool)).length ∧
    ocr_rows_bool lmEmpty [[false, false], [false, false]] = some (some []) :=
  ⟨by decide, by decide,
    (C7_all_blank lmEmpty [[false, false], [false, false]] 2 (by decide) (by decide)
      (by decide) (by decide) (by decide)).1⟩

/-- C8 (amended): ocr returns the Rust None exactly when the trimmed
normalized text contains no line break; when a line break is found and ocr
does not panic, it returns Some.  As literally stated the claim fails: an
input with a line break can make ocr panic instead of returning Some — see
the counterexample. -/
theorem C8_none_iff_no_newline (lm : Nat → Option Char) (s : List Char) :
    (ocr_str lm s = some none ↔ findNewline (rustTrim (normalize_str s)) = none) ∧
    (ocr_str lm s ≠ none → findNewline (rustTrim (normalize_str s)) ≠ none →
      ∃ out, ocr_str lm s = some (some out)) := by
  rcases map_to_id_cases s with ⟨hf, hm⟩ | ⟨hf, hm2⟩
  · have hocr : ocr_str lm s = some none := by
      unfold ocr_str ocrFromText normalize_str
      rw [hm]
    constructor
    · rw [hocr]
      exact ⟨fun _ => hf, fun _ => rfl⟩
    · intro _ hne
      exact absurd hf hne
  · rcases hm2 with hnone | ⟨ids, hsome⟩
    · have hocr : ocr_str lm s = none := by
        unfold ocr_str ocrFromText normalize_str
        rw [hnone]
      constructor
      · rw [hocr]
        simp [normalize_str, hf]
      · intro hne _
        exact absurd hocr hne
    · have hocr : ocr_str lm s = some (some (ids.map (fun i => (lm i).getD '?'))) := by
        unfold ocr_str ocrFromText normalize_str
        rw [hsome]
      constructor
      · rw [hocr]
        simp [normalize_str, hf]
      · intro _ _
        exact ⟨_, hocr⟩

/-- C8 counterexample: the 4x2 grid text "##\n##\n##\n##" has a line break
after trimming, yet ocr does not return Some — the scan reads out of bounds
and panics (outer none). -/
theorem C8_counterexample :
    findNewline (rustTrim (normalize_str
      ['#', '#', '\n', '#', '#', '\n', '#', '#', '\n', '#', '#'])) = some 2 ∧
    ocr_str lmEmpty ['#', '#', '\n', '#', '#', '\n', '#', '#', '\n', '#', '#'] = none := by
  decide

/-- C8 witness: the amended equivalence at a concrete 2x2 text. -/
theorem C8_witness :
    (ocr_str lmEmpty ['#', '#', '\n', '#', '#'] = some none ↔
      findNewline (rustTrim (normalize_str ['#', '#', '\n', '#', '#'])) = none) ∧
    (∃ out, ocr_str lmEmpty ['#', '#', '\n', '#', '#'] = some (some out)) :=
  ⟨(C8_none_iff_no_newline lmEmpty ['#', '#', '\n', '#', '#']).1,
   (C8_none_iff_no_newline lmEmpty ['#', '#', '\n', '#', '#']).2 (by decide) (by decide)⟩

/-- C9 (confirmed): whenever segmentation succeeds with identifier list ids,
ocr returns Some of a string with exactly one character per identifier, and
every identifier with no entry in the letter map contributes the sentinel
'?' at its own position; decoding is never aborted by an unknown
identifier. -/
theorem C9_unknown_id_sentinel (lm : Nat → Option Char) (s : List Char) (ids : List Nat)
    (hseg : map_to_id (rustTrim (normalize_str s)) = some (some ids)) :
    ocr_str lm s = some (some (ids.map (fun i => (lm i).getD '?'))) ∧
    (ids.map (fun i => (lm i).getD '?')).length = ids.length ∧
    (∀ i, i < ids.length → lm (ids.getD i 0) = none →
      (ids.map (fun i => (lm i).getD '?')).getD i ' ' = '?') := by
  refine ⟨?_, by rw [List.length_map], ?_⟩
  · unfold ocr_str ocrFromText
    rw [hseg]
  · intro i hi hnone
    rw [getD_map_lt (fun i => (lm i).getD '?') hi 0 ' ', hnone]
    rfl

/-- C9 witness: on the 2x2 block "##\n##" with the empty letter map the
single identifier 15 has no catalogue entry and decodes to "?". -/
theorem C9_witness :
    map_to_id (rustTrim (normalize_str ['#', '#', '\n', '#', '#'])) = some (some [15]) ∧
    ocr_str lmEmpty ['#', '#', '\n', '#', '#']
      = some (some ([15].map (fun i => (lmEmpty i).getD '?'))) :=
  ⟨by decide,
    (C9_unknown_id_sentinel lmEmpty ['#', '#', '\n', '#', '#'] [15] (by decide)).1⟩

/-- C10 (confirmed): for width > 0 the flat normalizers do not fail on a
length not divisible by the width: they emit exactly len / width rows, each
of exactly width cells and one terminating line break, and the trailing
elements of a partial last row (indices >= width * (len / width)) are
silently ignored — replacing the input by its truncation to the complete
rows leaves the output unchanged. -/
theorem C10_flat_partial_rows (bools : List Bool) (chars : List Char) (w : Nat) (hw : 0 < w) :
    (normalize_flat_bool bools w = normalize_flat_bool (bools.take (w * (bools.length / w))) w ∧
     ∃ rows : List (List Char),
       normalize_flat_bool bools w = some (rows.flatMap (fun r => r ++ ['\n'])) ∧
       rows.length = bools.length / w ∧ ∀ r ∈ rows, r.length = w) ∧
    (normalize_flat_char chars w = normalize_flat_char (chars.take (w * (chars.length / w))) w ∧
     ∃ rows : List (List Char),
       normalize_flat_char chars w = some (rows.flatMap (fun r => r ++ ['\n'])) ∧
       rows.length = chars.length / w ∧ ∀ r ∈ rows, r.length = w) := by
  constructor
  · constructor
    · unfold normalize_flat_bool
      rw [if_neg (by omega), if_neg (by omega)]
      exact congrArg some (flat_take_generic boolChar false bools w hw)
    · refine ⟨(List.range (bools.length / w)).map (fun y =>
        (List.range w).map (fun x => boolChar (bools.getD (x + y * w) false))),
        ?_, by simp, ?_⟩
      · unfold normalize_flat_bool
        rw [if_neg (by omega)]
        exact congrArg some (flat_rows_generic boolChar false bools w).symm
      · intro r hr
        obtain ⟨y, hy, rfl⟩ := List.mem_map.mp hr
        simp
  · constructor
    · unfold normalize_flat_char
      rw [if_neg (by omega), if_neg (by omega)]
      exact congrArg some (flat_take_generic (fun c => c) ' ' chars w hw)
    · refine ⟨(List.range (chars.length / w)).map (fun y =>
        (List.range w).map (fun x => chars.getD (x + y * w) ' ')),
        ?_, by simp, ?_⟩
      · unfold normalize_flat_char
        rw [if_neg (by omega)]
        exact congrArg some (flat_rows_generic (fun c => c) ' ' chars w).symm
      · intro r hr
        obtain ⟨y, hy, rfl⟩ := List.mem_map.mp hr
        simp

/-- C10 witness: truncation-invariance at concrete flat inputs of length 3
with width 2 (the trailing element is ignored). -/
theorem C10_witness :
    0 < 2 ∧
    normalize_flat_bool [true, false, true] 2
      = normalize_flat_bool ([true, false, true].take (2 * ([true, false, true].length / 2))) 2 ∧
    normalize_flat_char ['a', 'b', 'c'] 2
      = normalize_flat_char (['a', 'b', 'c'].take (2 * (['a', 'b', 'c'].length / 2))) 2 :=
  ⟨by decide, ((C10_flat_partial_rows [true, false, true] ['a', 'b', 'c'] 2 (by decide)).1).1,
   ((C10_flat_partial_rows [true, false, true] ['a', 'b', 'c'] 2 (by decide)).2).1⟩
